import Mathlib

/-!
Verification of the framewise streaming storage abstraction and its streaming
consumption contract, as demonstrated by the notebook `notebooks/on-disk.ipynb`.
The notebook calls into the library classes `PandasHDFStore` (a `FramewiseData`
backend), the streaming linker `link_df_iter`, and the runners `locate`/`batch`;
those implementations are not part of this repository slice, so the store and
linker are modelled from the specification's contract (data model, component
design and error handling sections) and the notebook's observable behaviour.
-/

/-- Field names of a feature row (e.g. "x", "y", "mass", "frame", "particle"). -/
abbrev FieldName := String

/-- Numeric attribute values of a feature row, modelled as integers. -/
abbrev Value := Int

/-- Modelled from the spec: a feature row is "a mapping from field name to
numeric value", kept as an ordered association list of named fields. -/
abbrev Row := List (FieldName × Value)

/-- Modelled from the spec: a frame record table is "an ordered sequence of
feature rows". -/
abbrev Table := List Row

/-- The value of the time/frame column of a row, when the row carries it. -/
def rowFrame (t_column : FieldName) (r : Row) : Option Value :=
  (r.find? (fun p => p.1 == t_column)).map Prod.snd

/-- A table's rows "carry mixed frame indices" when two rows carry distinct
values in the time/frame column. -/
def mixedFrames (t_column : FieldName) (t : Table) : Bool :=
  match t.filterMap (rowFrame t_column) with
  | [] => false
  | v :: vs => vs.any (fun w => !(w == v))

/-- Modelled from the spec's error handling design: NotFound (requested frame
index absent), InvalidData (rows reference inconsistent frame indices or a
required column is missing), and resource misuse (operating on a closed
store). -/
inductive Err where
  | NotFound
  | InvalidData
  | ResourceMisuse
deriving DecidableEq

/-- Modelled from the spec: a `FramewiseData` store keyed by integer frame
index, "each key maps to exactly one frame record table", iterated in
ascending key order; the keyed table-of-tables is kept as a key-sorted
association list, together with the time-column name and an open/closed
flag for the scoped-resource discipline. -/
structure PandasHDFStore where
  t_column : FieldName
  frames : List (Value × Table)
  isOpen : Bool
deriving DecidableEq

/-- Insert a (frame index, table) entry into a key-sorted association list,
replacing the entry of an already-present key. -/
def putEntry (k : Value) (t : Table) : List (Value × Table) → List (Value × Table)
  | [] => [(k, t)]
  | (k', t') :: rest =>
    if k < k' then (k, t) :: (k', t') :: rest
    else if k = k' then (k, t) :: rest
    else (k', t') :: putEntry k t rest

/-- Modelled from the spec: `put(table, frame_index?)` stores/replaces the
table for a frame; the explicit frame index is optional when the table
carries its own frame column; rows with mixed frame indices are InvalidData;
an empty table is stored as a no-op (the notebook's frame 9 has 0 features
and its `put` succeeds); a closed store is resource misuse. -/
def PandasHDFStore.put (s : PandasHDFStore) (t : Table) (k? : Option Value) :
    Except Err PandasHDFStore :=
  if s.isOpen = false then .error .ResourceMisuse
  else if t = [] then .ok s
  else if mixedFrames s.t_column t then .error .InvalidData
  else
    match k? with
    | some k => .ok { s with frames := putEntry k t s.frames }
    | none =>
      match (t.filterMap (rowFrame s.t_column)).head? with
      | some k => .ok { s with frames := putEntry k t s.frames }
      | none => .error .InvalidData

/-- Modelled from the spec: `get(frame_index)` returns the table for that
frame, NotFound if absent, resource misuse on a closed store. -/
def PandasHDFStore.get (s : PandasHDFStore) (k : Value) : Except Err Table :=
  if s.isOpen = false then .error .ResourceMisuse
  else
    match s.frames.find? (fun p => p.1 == k) with
    | some p => .ok p.2
    | none => .error .NotFound

/-- Modelled from the spec: closing flushes and invalidates further use of
the handle; closing an already-closed store is resource misuse. -/
def PandasHDFStore.close (s : PandasHDFStore) : Except Err PandasHDFStore :=
  if s.isOpen = false then .error .ResourceMisuse
  else .ok { s with isOpen := false }

/-- Modelled from the spec: iteration produces the ascending sequence of
(frame index, table) pairs; a closed store is resource misuse. -/
def PandasHDFStore.iterFrames (s : PandasHDFStore) :
    Except Err (List (Value × Table)) :=
  if s.isOpen = false then .error .ResourceMisuse
  else .ok s.frames

/-- Modelled from the spec: `max_frame` is the "current highest stored key,
or a sentinel for empty" (`none` is the sentinel). -/
def PandasHDFStore.max_frame (s : PandasHDFStore) : Except Err (Option Value) :=
  if s.isOpen = false then .error .ResourceMisuse
  else .ok (s.frames.getLast?.map Prod.fst)

/-- Modelled from the spec: `dump(n?)` returns the concatenation of the
first `n` frames (or all of them) as one combined table. -/
def PandasHDFStore.dump (s : PandasHDFStore) (n? : Option Nat) : Except Err Table :=
  if s.isOpen = false then .error .ResourceMisuse
  else
    match n? with
    | some n => .ok (List.flatten ((s.frames.take n).map Prod.snd))
    | none => .ok (List.flatten (s.frames.map Prod.snd))

/-- Modelled from the spec: removing a frame's entry (the spec's testable
properties quantify over "any sequence of puts/deletes"). -/
def PandasHDFStore.delete (s : PandasHDFStore) (k : Value) :
    Except Err PandasHDFStore :=
  if s.isOpen = false then .error .ResourceMisuse
  else .ok { s with frames := s.frames.filter (fun p => !(p.1 == k)) }

/-- A freshly opened store with no frames. -/
def emptyStore (t_column : FieldName) : PandasHDFStore :=
  { t_column := t_column, frames := [], isOpen := true }

/-- A sequence of explicit-key puts, applied left to right, stopping at the
first error. -/
def putMany (s : PandasHDFStore) : List (Value × Table) → Except Err PandasHDFStore
  | [] => .ok s
  | p :: rest =>
    match s.put p.2 (some p.1) with
    | .ok s' => putMany s' rest
    | .error e => .error e

/-- The store invariant: frame indices strictly ascend along the list
(hence each key is present at most once). -/
def sortedFrames (l : List (Value × Table)) : Prop :=
  List.Pairwise (fun a b => a.1 < b.1) l

/-! ### Basic lemmas about `putEntry` and `find?` -/

theorem mem_putEntry {k : Value} {t : Table} {l : List (Value × Table)}
    {x : Value × Table} (hx : x ∈ putEntry k t l) : x = (k, t) ∨ x ∈ l := by
  induction l with
  | nil => simpa [putEntry] using hx
  | cons a rest ih =>
    obtain ⟨k', t'⟩ := a
    by_cases h1 : k < k'
    · simp only [putEntry, if_pos h1, List.mem_cons] at hx
      rcases hx with hx | hx | hx
      · exact Or.inl hx
      · exact Or.inr (by simp [hx])
      · exact Or.inr (by simp [hx])
    · by_cases h2 : k = k'
      · simp only [putEntry, if_neg h1, if_pos h2, List.mem_cons] at hx
        rcases hx with hx | hx
        · exact Or.inl hx
        · exact Or.inr (by simp [hx])
      · simp only [putEntry, if_neg h1, if_neg h2, List.mem_cons] at hx
        rcases hx with hx | hx
        · exact Or.inr (by simp [hx])
        · rcases ih hx with hx | hx
          · exact Or.inl hx
          · exact Or.inr (by simp [hx])

theorem putEntry_sorted {k : Value} {t : Table} {l : List (Value × Table)}
    (h : sortedFrames l) : sortedFrames (putEntry k t l) := by
  induction l with
  | nil => simp [putEntry, sortedFrames]
  | cons a rest ih =>
    obtain ⟨k', t'⟩ := a
    rw [sortedFrames, List.pairwise_cons] at h
    obtain ⟨hhead, htail⟩ := h
    by_cases h1 : k < k'
    · rw [sortedFrames, putEntry]
      simp only [if_pos h1, List.pairwise_cons, List.mem_cons]
      refine ⟨?_, ?_, htail⟩
      · rintro b (rfl | hb)
        · exact h1
        · exact lt_trans h1 (hhead b hb)
      · exact hhead
    · by_cases h2 : k = k'
      · rw [sortedFrames, putEntry]
        simp only [if_neg h1, if_pos h2, List.pairwise_cons]
        exact ⟨fun b hb => h2 ▸ hhead b hb, htail⟩
      · rw [sortedFrames, putEntry]
        simp only [if_neg h1, if_neg h2, List.pairwise_cons]
        refine ⟨?_, ih htail⟩
        intro b hb
        rcases mem_putEntry hb with rfl | hb
        · exact lt_of_le_of_ne (not_lt.mp h1) (Ne.symm h2)
        · exact hhead b hb

theorem find?_putEntry_same (k : Value) (t : Table) (l : List (Value × Table)) :
    (putEntry k t l).find? (fun p => p.1 == k) = some (k, t) := by
  induction l with
  | nil => simp [putEntry]
  | cons a rest ih =>
    obtain ⟨k', t'⟩ := a
    by_cases h1 : k < k'
    · simp [putEntry, if_pos h1]
    · by_cases h2 : k = k'
      · simp [putEntry, if_neg h1, if_pos h2]
      · have hne : (k' == k) = false := by
          simpa using fun h => h2 h.symm
        simp [putEntry, if_neg h1, if_neg h2, List.find?, hne, ih]

theorem find?_putEntry_other {k k' : Value} (hne : k' ≠ k) (t : Table)
    (l : List (Value × Table)) :
    (putEntry k t l).find? (fun p => p.1 == k') = l.find? (fun p => p.1 == k') := by
  have hk : (k == k') = false := by simpa using fun h => hne h.symm
  induction l with
  | nil => simp [putEntry, List.find?, hk]
  | cons a rest ih =>
    obtain ⟨k'', t''⟩ := a
    by_cases h1 : k < k''
    · simp [putEntry, if_pos h1, List.find?, hk]
    · by_cases h2 : k = k''
      · subst h2
        simp [putEntry, if_neg h1, List.find?, hk]
      · simp only [putEntry, if_neg h1, if_neg h2]
        by_cases h3 : (k'' == k') = true
        · simp [List.find?, h3]
        · simp only [List.find?, h3]
          simpa [h3] using ih

/-! ### Effect of `put` on the store fields -/

theorem put_ok_fields {s s' : PandasHDFStore} {t : Table} {k? : Option Value}
    (h : s.put t k? = .ok s') :
    s'.t_column = s.t_column ∧ s'.isOpen = s.isOpen ∧
      (s'.frames = s.frames ∨ ∃ k, s'.frames = putEntry k t s.frames) := by
  unfold PandasHDFStore.put at h
  by_cases hopen : s.isOpen = false
  · simp [hopen] at h
  · rw [if_neg hopen] at h
    by_cases hemp : t = []
    · rw [if_pos hemp] at h
      simp only [Except.ok.injEq] at h
      subst h
      exact ⟨rfl, rfl, Or.inl rfl⟩
    · rw [if_neg hemp] at h
      by_cases hmix : mixedFrames s.t_column t = true
      · simp [hmix] at h
      · rw [if_neg hmix] at h
        match hk : k? with
        | some k =>
          simp only [Except.ok.injEq] at h
          subst h
          exact ⟨rfl, rfl, Or.inr ⟨k, rfl⟩⟩
        | none =>
          match hh : (t.filterMap (rowFrame s.t_column)).head? with
          | some k =>
            rw [hh] at h
            simp only [Except.ok.injEq] at h
            subst h
            exact ⟨rfl, rfl, Or.inr ⟨k, rfl⟩⟩
          | none =>
            rw [hh] at h
            simp at h

theorem put_some_ok {s : PandasHDFStore} {t : Table} {k : Value}
    (hopen : s.isOpen = true) (hemp : t ≠ [])
    (hmix : mixedFrames s.t_column t = false) :
    s.put t (some k) = .ok { s with frames := putEntry k t s.frames } := by
  unfold PandasHDFStore.put
  simp [hopen, hemp, hmix]

theorem get_of_find {s : PandasHDFStore} {k : Value} {t : Table}
    (hopen : s.isOpen = true)
    (hfind : s.frames.find? (fun p => p.1 == k) = some (k, t)) :
    s.get k = .ok t := by
  unfold PandasHDFStore.get
  simp [hopen, hfind]

/-- A successful explicit-key `put` leaves `t_column` and `isOpen` unchanged
and either leaves the frames unchanged (empty table) or inserts at its key. -/
theorem put_some_cases {s s' : PandasHDFStore} {t : Table} {j : Value}
    (h : s.put t (some j) = .ok s') :
    s'.t_column = s.t_column ∧ s'.isOpen = s.isOpen ∧
      (s'.frames = s.frames ∨ s'.frames = putEntry j t s.frames) := by
  unfold PandasHDFStore.put at h
  by_cases hopen : s.isOpen = false
  · simp [hopen] at h
  · rw [if_neg hopen] at h
    by_cases hemp : t = []
    · rw [if_pos hemp] at h
      simp only [Except.ok.injEq] at h
      subst h
      exact ⟨rfl, rfl, Or.inl rfl⟩
    · rw [if_neg hemp] at h
      by_cases hmix : mixedFrames s.t_column t = true
      · simp [hmix] at h
      · rw [if_neg hmix] at h
        simp only [Except.ok.injEq] at h
        subst h
        exact ⟨rfl, rfl, Or.inr rfl⟩

/-- The `find?` result at key `k` survives a sequence of explicit-key puts
at other keys, and `t_column`/`isOpen` are untouched. -/
theorem putMany_preserves {k : Value} :
    ∀ (ops : List (Value × Table)) (s s' : PandasHDFStore),
    (∀ p ∈ ops, p.1 ≠ k) → putMany s ops = .ok s' →
    s'.t_column = s.t_column ∧ s'.isOpen = s.isOpen ∧
      s'.frames.find? (fun p => p.1 == k) = s.frames.find? (fun p => p.1 == k) := by
  intro ops
  induction ops with
  | nil =>
    intro s s' _ h
    simp only [putMany, Except.ok.injEq] at h
    subst h
    exact ⟨rfl, rfl, rfl⟩
  | cons a rest ih =>
    intro s s' hne h
    rw [putMany] at h
    match hstep : s.put a.2 (some a.1) with
    | .error e => rw [hstep] at h; exact absurd h (by simp)
    | .ok s1 =>
      rw [hstep] at h
      obtain ⟨ht1, ho1, hf1⟩ := put_some_cases hstep
      have hrest := ih s1 s' (fun p hp => hne p (List.mem_cons_of_mem a hp)) h
      refine ⟨hrest.1.trans ht1, hrest.2.1.trans ho1, hrest.2.2.trans ?_⟩
      rcases hf1 with hf1 | hf1
      · rw [hf1]
      · rw [hf1]
        exact find?_putEntry_other (k := a.1) (hne a (List.mem_cons_self a rest)).symm a.2 s.frames

/-! ### C1 -/

/-- C1: after `put(t)` at frame index `k`, `get(k)` returns a table equal to
`t`; this persists through any later successful puts at other indices, and a
later put at the same index `k` replaces the table rather than appending,
so `get(k)` then returns the later table. -/
theorem put_get_until_overwrite (s : PandasHDFStore) (t t2 : Table) (k : Value)
    (ops : List (Value × Table))
    (hopen : s.isOpen = true) (ht : t ≠ [])
    (hmix : mixedFrames s.t_column t = false)
    (hops : ∀ p ∈ ops, p.1 ≠ k)
    (ht2 : t2 ≠ []) (hmix2 : mixedFrames s.t_column t2 = false) :
    ∃ s1, s.put t (some k) = .ok s1 ∧ s1.get k = .ok t ∧
      ∀ s2, putMany s1 ops = .ok s2 → s2.get k = .ok t ∧
        ∃ s3, s2.put t2 (some k) = .ok s3 ∧ s3.get k = .ok t2 := by
  refine ⟨_, put_some_ok hopen ht hmix, ?_, ?_⟩
  · exact get_of_find hopen (find?_putEntry_same k t s.frames)
  · intro s2 h2
    obtain ⟨ht21, ho21, hf21⟩ := putMany_preserves ops _ s2 hops h2
    constructor
    · have : s2.get k = .ok t := by
        unfold PandasHDFStore.get
        rw [ho21]
        simp only [hopen, Bool.true_eq_false, if_false]
        rw [hf21]
        simp [find?_putEntry_same]
      exact this
    · have hmix2' : mixedFrames s2.t_column t2 = false := by rw [ht21]; exact hmix2
      have hopen2 : s2.isOpen = true := by rw [ho21]; exact hopen
      refine ⟨_, put_some_ok hopen2 ht2 hmix2', ?_⟩
      exact get_of_find hopen2 (find?_putEntry_same k t2 s2.frames)

/-- Witness for C1 at a concrete store, tables and indices. -/
theorem put_get_until_overwrite_witness :
    ((emptyStore "frame").isOpen = true ∧
      ([[("frame", (5 : Int)), ("x", 1)]] : Table) ≠ [] ∧
      mixedFrames "frame" [[("frame", (5 : Int)), ("x", 1)]] = false ∧
      (∀ p ∈ ([((7 : Int), [[("frame", (7 : Int))]])] : List (Value × Table)), p.1 ≠ (5 : Int)) ∧
      ([[("frame", (5 : Int)), ("x", 2)]] : Table) ≠ [] ∧
      mixedFrames "frame" [[("frame", (5 : Int)), ("x", 2)]] = false) ∧
    (∃ s1, (emptyStore "frame").put [[("frame", (5 : Int)), ("x", 1)]] (some 5) = .ok s1 ∧
      s1.get 5 = .ok [[("frame", (5 : Int)), ("x", 1)]] ∧
      ∀ s2, putMany s1 [((7 : Int), [[("frame", (7 : Int))]])] = .ok s2 →
        s2.get 5 = .ok [[("frame", (5 : Int)), ("x", 1)]] ∧
        ∃ s3, s2.put [[("frame", (5 : Int)), ("x", 2)]] (some 5) = .ok s3 ∧
          s3.get 5 = .ok [[("frame", (5 : Int)), ("x", 2)]]) :=
  ⟨⟨by decide, by decide, by decide, by decide, by decide, by decide⟩,
    put_get_until_overwrite (emptyStore "frame") _ _ 5 _ (by decide) (by decide)
      (by decide) (by decide) (by decide) (by decide)⟩

/-! ### C2 -/

/-- A sequence of puts with optional explicit keys (covering both the
explicit-index and the inferred-from-column call styles). -/
def putManyOpt (s : PandasHDFStore) :
    List (Option Value × Table) → Except Err PandasHDFStore
  | [] => .ok s
  | p :: rest =>
    match s.put p.2 p.1 with
    | .ok s' => putManyOpt s' rest
    | .error e => .error e

theorem put_preserves_sorted {s s' : PandasHDFStore} {t : Table} {k? : Option Value}
    (h : s.put t k? = .ok s') (hs : sortedFrames s.frames) :
    sortedFrames s'.frames := by
  obtain ⟨-, -, hf⟩ := put_ok_fields h
  rcases hf with hf | ⟨k, hf⟩
  · rw [hf]; exact hs
  · rw [hf]; exact putEntry_sorted hs

theorem putManyOpt_invariant :
    ∀ (ops : List (Option Value × Table)) (s s' : PandasHDFStore),
    putManyOpt s ops = .ok s' → sortedFrames s.frames →
    sortedFrames s'.frames ∧ s'.isOpen = s.isOpen := by
  intro ops
  induction ops with
  | nil =>
    intro s s' h hs
    simp only [putManyOpt, Except.ok.injEq] at h
    subst h
    exact ⟨hs, rfl⟩
  | cons a rest ih =>
    intro s s' h hs
    rw [putManyOpt] at h
    match hstep : s.put a.2 a.1 with
    | .error e => rw [hstep] at h; exact absurd h (by simp)
    | .ok s1 =>
      rw [hstep] at h
      obtain ⟨-, ho1, -⟩ := put_ok_fields hstep
      have := ih s1 s' h (put_preserves_sorted hstep hs)
      exact ⟨this.1, this.2.trans ho1⟩

/-- C2: for every sequence of put operations, in whatever key order, iterating
the store yields (frame index, table) pairs whose frame indices strictly
ascend (hence are non-decreasing). -/
theorem iter_ascending (t_column : FieldName) (ops : List (Option Value × Table))
    (s' : PandasHDFStore) (h : putManyOpt (emptyStore t_column) ops = .ok s') :
    ∃ l, s'.iterFrames = .ok l ∧ List.Pairwise (fun a b => a.1 < b.1) l := by
  obtain ⟨hsort, hopen⟩ :=
    putManyOpt_invariant ops (emptyStore t_column) s' h (by simp [emptyStore, sortedFrames])
  refine ⟨s'.frames, ?_, hsort⟩
  unfold PandasHDFStore.iterFrames
  simp [hopen, emptyStore]

/-- Witness for C2: three puts in scrambled key order (the middle one with
the index inferred from the frame column) iterate in ascending order. -/
theorem iter_ascending_witness :
    putManyOpt (emptyStore "frame")
        [(some 7, [[("frame", (7 : Int))]]),
         (none, [[("frame", (3 : Int)), ("x", 1)]]),
         (some 5, [[("frame", (5 : Int))]])] =
      .ok { t_column := "frame",
            frames := [(3, [[("frame", (3 : Int)), ("x", 1)]]),
                       (5, [[("frame", (5 : Int))]]),
                       (7, [[("frame", (7 : Int))]])],
            isOpen := true } ∧
    ∃ l, PandasHDFStore.iterFrames
          { t_column := "frame",
            frames := [(3, [[("frame", (3 : Int)), ("x", 1)]]),
                       (5, [[("frame", (5 : Int))]]),
                       (7, [[("frame", (7 : Int))]])],
            isOpen := true } = .ok l ∧
      List.Pairwise (fun a b => a.1 < b.1) l :=
  ⟨by rfl,
    iter_ascending "frame"
      [(some 7, [[("frame", (7 : Int))]]),
       (none, [[("frame", (3 : Int)), ("x", 1)]]),
       (some 5, [[("frame", (5 : Int))]])] _ (by rfl)⟩

/-! ### C3 -/

/-- A store operation: a put (with optional explicit frame index) or a
delete of a frame index. -/
inductive StoreOp where
  | putOp (k? : Option Value) (t : Table)
  | deleteOp (k : Value)
deriving DecidableEq

def applyOp (s : PandasHDFStore) : StoreOp → Except Err PandasHDFStore
  | .putOp k? t => s.put t k?
  | .deleteOp k => s.delete k

def applyOps (s : PandasHDFStore) : List StoreOp → Except Err PandasHDFStore
  | [] => .ok s
  | op :: rest =>
    match applyOp s op with
    | .ok s' => applyOps s' rest
    | .error e => .error e

theorem delete_ok_fields {s s' : PandasHDFStore} {k : Value}
    (h : s.delete k = .ok s') :
    s'.t_column = s.t_column ∧ s'.isOpen = s.isOpen ∧
      s'.frames = s.frames.filter (fun p => !(p.1 == k)) := by
  unfold PandasHDFStore.delete at h
  by_cases hopen : s.isOpen = false
  · simp [hopen] at h
  · rw [if_neg hopen] at h
    simp only [Except.ok.injEq] at h
    subst h
    exact ⟨rfl, rfl, rfl⟩

theorem applyOps_invariant :
    ∀ (ops : List StoreOp) (s s' : PandasHDFStore),
    applyOps s ops = .ok s' → sortedFrames s.frames →
    sortedFrames s'.frames ∧ s'.isOpen = s.isOpen := by
  intro ops
  induction ops with
  | nil =>
    intro s s' h hs
    simp only [applyOps, Except.ok.injEq] at h
    subst h
    exact ⟨hs, rfl⟩
  | cons op rest ih =>
    intro s s' h hs
    rw [applyOps] at h
    match hstep : applyOp s op with
    | .error e => rw [hstep] at h; exact absurd h (by simp)
    | .ok s1 =>
      rw [hstep] at h
      have hs1 : sortedFrames s1.frames ∧ s1.isOpen = s.isOpen := by
        match op with
        | .putOp k? t =>
          obtain ⟨-, ho, -⟩ := put_ok_fields hstep
          exact ⟨put_preserves_sorted hstep hs, ho⟩
        | .deleteOp k =>
          obtain ⟨-, ho, hf⟩ := delete_ok_fields hstep
          refine ⟨?_, ho⟩
          rw [hf]
          exact List.Pairwise.sublist (List.filter_sublist _) hs
      have := ih s1 s' h hs1.1
      exact ⟨this.1, this.2.trans hs1.2⟩

/-- In a key-sorted frame list, every key is at most the last entry's key. -/
theorem sorted_le_getLast :
    ∀ (l : List (Value × Table)), sortedFrames l → ∀ (hne : l ≠ []),
    ∀ p ∈ l, p.1 ≤ (l.getLast hne).1 := by
  intro l
  induction l with
  | nil => intro _ hne; cases hne rfl
  | cons x rest ih =>
    intro hs hne p hp
    cases rest with
    | nil =>
      rcases List.mem_cons.mp hp with rfl | hp'
      · simp [List.getLast]
      · cases hp'
    | cons y rest' =>
      rw [sortedFrames, List.pairwise_cons] at hs
      have hne' : y :: rest' ≠ [] := by simp
      rw [List.getLast_cons hne']
      rcases List.mem_cons.mp hp with rfl | hp'
      · exact le_of_lt (hs.1 _ (List.getLast_mem hne'))
      · exact ih hs.2 hne' p hp'

/-- C3: after any sequence of puts and deletes, `max_frame` returns the
maximum frame index present in the store, and the sentinel `none` when the
store is empty. -/
theorem max_frame_correct (t_column : FieldName) (ops : List StoreOp)
    (s' : PandasHDFStore) (h : applyOps (emptyStore t_column) ops = .ok s') :
    (s'.frames = [] → s'.max_frame = .ok none) ∧
    (s'.frames ≠ [] → ∃ m, s'.max_frame = .ok (some m) ∧
      (∃ t, (m, t) ∈ s'.frames) ∧ ∀ p ∈ s'.frames, p.1 ≤ m) := by
  obtain ⟨hsort, hopen⟩ :=
    applyOps_invariant ops (emptyStore t_column) s' h (by simp [emptyStore, sortedFrames])
  have hopen' : s'.isOpen = true := by rw [hopen]; rfl
  constructor
  · intro hemp
    unfold PandasHDFStore.max_frame
    simp [hopen', hemp]
  · intro hne
    refine ⟨(s'.frames.getLast hne).1, ?_, ?_, sorted_le_getLast _ hsort hne⟩
    · unfold PandasHDFStore.max_frame
      simp only [hopen', Bool.true_eq_false, if_false]
      rw [List.getLast?_eq_getLast _ hne]
      rfl
    · exact ⟨(s'.frames.getLast hne).2, by simp [List.getLast_mem hne]⟩

/-- The store reached by putting frames 3 and 1 and then deleting 3. -/
def sampleStoreC3 : PandasHDFStore :=
  { t_column := "frame", frames := [(1, [[("frame", (1 : Int))]])], isOpen := true }

/-- Witness for C3: put frames 3 and 1, then delete 3; `max_frame` is 1. -/
theorem max_frame_correct_witness :
    applyOps (emptyStore "frame")
        [.putOp (some 3) [[("frame", (3 : Int))]],
         .putOp (some 1) [[("frame", (1 : Int))]],
         .deleteOp 3] = .ok sampleStoreC3 ∧
    (sampleStoreC3.frames = [] → sampleStoreC3.max_frame = .ok none) ∧
    (sampleStoreC3.frames ≠ [] →
      ∃ m, sampleStoreC3.max_frame = .ok (some m) ∧
        (∃ t, (m, t) ∈ sampleStoreC3.frames) ∧
        ∀ p ∈ sampleStoreC3.frames, p.1 ≤ m) :=
  ⟨by rfl,
    max_frame_correct "frame"
      [.putOp (some 3) [[("frame", (3 : Int))]],
       .putOp (some 1) [[("frame", (1 : Int))]],
       .deleteOp 3] sampleStoreC3 (by rfl)⟩

/-! ### C4 -/

/-- In a key-sorted frame list, `find?` at a present key returns exactly that
entry. -/
theorem find?_of_mem_sorted :
    ∀ (l : List (Value × Table)) (k : Value) (t : Table),
    sortedFrames l → (k, t) ∈ l → l.find? (fun p => p.1 == k) = some (k, t) := by
  intro l
  induction l with
  | nil => intro k t _ hm; cases hm
  | cons a rest ih =>
    intro k t hs hm
    obtain ⟨k', t'⟩ := a
    rw [sortedFrames, List.pairwise_cons] at hs
    rcases List.mem_cons.mp hm with heq | hm'
    · obtain ⟨rfl, rfl⟩ := Prod.mk.injEq .. ▸ heq
      simp [List.find?]
    · have hk : k' < k := by
        have := hs.1 (k, t) hm'
        simpa using this
      have hne : (k' == k) = false := by simp [ne_of_lt hk]
      simp only [List.find?, hne]
      exact ih k t hs.2 hm'

/-- `get` on each of a list of present frame indices, collecting the tables
(first error aborts). -/
def getTables (s : PandasHDFStore) : List Value → Except Err (List Table)
  | [] => .ok []
  | k :: ks =>
    match s.get k with
    | .ok t =>
      match getTables s ks with
      | .ok ts => .ok (t :: ts)
      | .error e => .error e
    | .error e => .error e

theorem getTables_of_mem (s : PandasHDFStore) :
    ∀ (l : List (Value × Table)), (∀ p ∈ l, s.get p.1 = .ok p.2) →
    getTables s (l.map Prod.fst) = .ok (l.map Prod.snd) := by
  intro l
  induction l with
  | nil => intro _; rfl
  | cons a rest ih =>
    intro h
    have ha := h a (List.mem_cons_self a rest)
    have hrest := ih fun p hp => h p (List.mem_cons_of_mem a hp)
    simp only [List.map_cons, getTables, ha, hrest]

/-- C4: `dump(n)` equals the concatenation of `get(i)` over the first `n`
frame indices present in the store (ascending), and `dump()` with no bound
equals the concatenation over all present frame indices. -/
theorem dump_correct (s : PandasHDFStore) (n : Nat)
    (hopen : s.isOpen = true) (hs : sortedFrames s.frames) :
    (∃ ts, getTables s ((s.frames.map Prod.fst).take n) = .ok ts ∧
      s.dump (some n) = .ok ts.flatten) ∧
    (∃ tsAll, getTables s (s.frames.map Prod.fst) = .ok tsAll ∧
      s.dump none = .ok tsAll.flatten) := by
  have hget : ∀ p ∈ s.frames, s.get p.1 = .ok p.2 := by
    intro p hp
    exact get_of_find hopen (find?_of_mem_sorted s.frames p.1 p.2 hs (by simpa using hp))
  constructor
  · refine ⟨(s.frames.take n).map Prod.snd, ?_, ?_⟩
    · rw [← List.map_take]
      exact getTables_of_mem s _ fun p hp => hget p (List.mem_of_mem_take hp)
    · unfold PandasHDFStore.dump
      simp [hopen]
  · refine ⟨s.frames.map Prod.snd, getTables_of_mem s _ hget, ?_⟩
    unfold PandasHDFStore.dump
    simp [hopen]

/-- A two-frame store used as a concrete witness input. -/
def sampleStoreC4 : PandasHDFStore :=
  { t_column := "frame",
    frames := [(2, [[("frame", (2 : Int)), ("x", 10)]]),
               (4, [[("frame", (4 : Int)), ("x", 20)], [("frame", (4 : Int)), ("x", 21)]])],
    isOpen := true }

/-- Witness for C4 on a concrete two-frame store with `n = 1`. -/
theorem dump_correct_witness :
    (sampleStoreC4.isOpen = true ∧ sortedFrames sampleStoreC4.frames) ∧
    ((∃ ts, getTables sampleStoreC4 ((sampleStoreC4.frames.map Prod.fst).take 1) = .ok ts ∧
        sampleStoreC4.dump (some 1) = .ok ts.flatten) ∧
      (∃ tsAll, getTables sampleStoreC4 (sampleStoreC4.frames.map Prod.fst) = .ok tsAll ∧
        sampleStoreC4.dump none = .ok tsAll.flatten)) :=
  ⟨⟨rfl, by rw [sortedFrames]; simp [sampleStoreC4]⟩,
    dump_correct sampleStoreC4 1 rfl (by rw [sortedFrames]; simp [sampleStoreC4])⟩

/-! ### C5 -/

theorem mixedFrames_eq_false_of_const {tc : FieldName} {t : Table} {k : Value}
    (h : ∀ r ∈ t, rowFrame tc r = some k) : mixedFrames tc t = false := by
  have hall : ∀ v ∈ t.filterMap (rowFrame tc), v = k := by
    intro v hv
    obtain ⟨r, hr, hrv⟩ := List.mem_filterMap.mp hv
    rw [h r hr] at hrv
    exact (Option.some.injEq _ _ ▸ hrv).symm
  unfold mixedFrames
  cases hm : t.filterMap (rowFrame tc) with
  | nil => rfl
  | cons v vs =>
    simp only [List.any_eq_false]
    intro w hw
    have hv : v = k := hall v (hm ▸ List.mem_cons_self v vs)
    have hwk : w = k := hall w (hm ▸ List.mem_cons_of_mem v hw)
    simp [hv, hwk]

/-- A non-mixed table is accepted by `put` on an open store when every row
carries the frame column. -/
theorem put_ok_of_not_mixed (s : PandasHDFStore) (t : Table) (k? : Option Value)
    (hopen : s.isOpen = true)
    (hcol : ∀ r ∈ t, (rowFrame s.t_column r).isSome = true)
    (hnm : mixedFrames s.t_column t = false) :
    ∃ s', s.put t k? = .ok s' := by
  unfold PandasHDFStore.put
  simp only [hopen, Bool.true_eq_false, if_false]
  by_cases hemp : t = []
  · rw [if_pos hemp]
    exact ⟨s, rfl⟩
  · rw [if_neg hemp, hnm, if_neg (by simp)]
    match k? with
    | some k => exact ⟨_, rfl⟩
    | none =>
      obtain ⟨r, rs, rfl⟩ := List.exists_cons_of_ne_nil hemp
      obtain ⟨v, hv⟩ := Option.isSome_iff_exists.mp (hcol r (by simp))
      rw [List.filterMap_cons_some hv]
      exact ⟨_, rfl⟩

/-- C5: on an open store, with every row carrying the frame column, `put`
fails (and does so with InvalidData) exactly when the rows carry mixed frame
indices; and when all rows agree on frame index `k`, the explicit index may
be omitted and `put` stores the table under `k`. -/
theorem put_invalid_iff_mixed (s : PandasHDFStore) (t : Table) (k? : Option Value)
    (hopen : s.isOpen = true)
    (hcol : ∀ r ∈ t, (rowFrame s.t_column r).isSome = true) :
    ((∃ e, s.put t k? = .error e) ↔ mixedFrames s.t_column t = true) ∧
    (mixedFrames s.t_column t = true → s.put t k? = .error .InvalidData) ∧
    (∀ k, (∀ r ∈ t, rowFrame s.t_column r = some k) → t ≠ [] →
      s.put t none = .ok { s with frames := putEntry k t s.frames }) := by
  have hmix : mixedFrames s.t_column t = true → s.put t k? = .error .InvalidData := by
    intro hm
    have hemp : t ≠ [] := by
      intro he
      rw [he] at hm
      simp [mixedFrames] at hm
    unfold PandasHDFStore.put
    simp [hopen, hemp, hm]
  refine ⟨⟨?_, fun hm => ⟨.InvalidData, hmix hm⟩⟩, hmix, ?_⟩
  · rintro ⟨e, he⟩
    by_contra hm
    obtain ⟨s', hs'⟩ :=
      put_ok_of_not_mixed s t k? hopen hcol (Bool.not_eq_true _ ▸ hm)
    rw [hs'] at he
    cases he
  · intro k hk hemp
    have hnm := mixedFrames_eq_false_of_const hk
    unfold PandasHDFStore.put
    simp only [hopen, Bool.true_eq_false, if_false, if_neg hemp, hnm,
      Bool.false_eq_true, if_false]
    obtain ⟨r, rs, rfl⟩ := List.exists_cons_of_ne_nil hemp
    rw [List.filterMap_cons_some (hk r (by simp))]
    rfl

/-- Witness for C5: a two-row table with mixed frame indices 2 and 3. -/
theorem put_invalid_iff_mixed_witness :
    ((emptyStore "frame").isOpen = true ∧
      (∀ r ∈ ([[("frame", (2 : Int)), ("x", 1)], [("frame", (3 : Int))]] : Table),
        (rowFrame "frame" r).isSome = true)) ∧
    (((∃ e, (emptyStore "frame").put
          [[("frame", (2 : Int)), ("x", 1)], [("frame", (3 : Int))]] none = .error e) ↔
        mixedFrames "frame" [[("frame", (2 : Int)), ("x", 1)], [("frame", (3 : Int))]] = true) ∧
      (mixedFrames "frame" [[("frame", (2 : Int)), ("x", 1)], [("frame", (3 : Int))]] = true →
        (emptyStore "frame").put
          [[("frame", (2 : Int)), ("x", 1)], [("frame", (3 : Int))]] none = .error .InvalidData) ∧
      (∀ k, (∀ r ∈ ([[("frame", (2 : Int)), ("x", 1)], [("frame", (3 : Int))]] : Table),
          rowFrame "frame" r = some k) →
        ([[("frame", (2 : Int)), ("x", 1)], [("frame", (3 : Int))]] : Table) ≠ [] →
        (emptyStore "frame").put [[("frame", (2 : Int)), ("x", 1)], [("frame", (3 : Int))]] none =
          .ok { emptyStore "frame" with
                frames := putEntry k [[("frame", (2 : Int)), ("x", 1)], [("frame", (3 : Int))]]
                  (emptyStore "frame").frames })) :=
  ⟨⟨rfl, by decide⟩,
    put_invalid_iff_mixed (emptyStore "frame")
      [[("frame", (2 : Int)), ("x", 1)], [("frame", (3 : Int))]] none rfl (by decide)⟩

/-! ### C6 -/

/-- C6: on an open store, `get k` returns the stored table when `k` is
present and fails with NotFound when `k` is absent; these are the only
possible outcomes. -/
theorem get_contract (s : PandasHDFStore) (k : Value)
    (hopen : s.isOpen = true) (hs : sortedFrames s.frames) :
    (∀ t, (k, t) ∈ s.frames → s.get k = .ok t) ∧
    ((∀ p ∈ s.frames, p.1 ≠ k) → s.get k = .error .NotFound) ∧
    ((∃ t, s.get k = .ok t ∧ (k, t) ∈ s.frames) ∨ s.get k = .error .NotFound) := by
  refine ⟨?_, ?_, ?_⟩
  · intro t hm
    exact get_of_find hopen (find?_of_mem_sorted s.frames k t hs hm)
  · intro habs
    have hf : s.frames.find? (fun p => p.1 == k) = none := by
      rw [List.find?_eq_none]
      intro p hp
      simp [habs p hp]
    unfold PandasHDFStore.get
    simp [hopen, hf]
  · cases hf : s.frames.find? (fun p => p.1 == k) with
    | some p =>
      left
      have hmem := List.mem_of_find?_eq_some hf
      have hpk : p.1 = k := by simpa using List.find?_some hf
      refine ⟨p.2, ?_, ?_⟩
      · unfold PandasHDFStore.get
        simp [hopen, hf]
      · have : p = (k, p.2) := by
          obtain ⟨p1, p2⟩ := p
          simp only at hpk
          rw [hpk]
        exact this ▸ hmem
    | none =>
      right
      unfold PandasHDFStore.get
      simp [hopen, hf]

/-- Witness for C6 on a concrete one-frame store, at the present index 2. -/
theorem get_contract_witness :
    (sampleStoreC3.isOpen = true ∧ sortedFrames sampleStoreC3.frames) ∧
    ((∀ t, ((1 : Int), t) ∈ sampleStoreC3.frames → sampleStoreC3.get 1 = .ok t) ∧
      ((∀ p ∈ sampleStoreC3.frames, p.1 ≠ (1 : Int)) →
        sampleStoreC3.get 1 = .error .NotFound) ∧
      ((∃ t, sampleStoreC3.get 1 = .ok t ∧ ((1 : Int), t) ∈ sampleStoreC3.frames) ∨
        sampleStoreC3.get 1 = .error .NotFound)) :=
  ⟨⟨rfl, by rw [sortedFrames]; simp [sampleStoreC3]⟩,
    get_contract sampleStoreC3 1 rfl (by rw [sortedFrames]; simp [sampleStoreC3])⟩

/-! ### C7 -/

/-- C7: closing an open store succeeds, leaves the stored frames unchanged,
and afterwards a second close and every operation (put, get, iterate, dump,
delete) fail with the resource-misuse error. -/
theorem closed_store_misuse (s : PandasHDFStore) (hopen : s.isOpen = true) :
    ∃ s', s.close = .ok s' ∧ s'.frames = s.frames ∧ s'.t_column = s.t_column ∧
      s'.isOpen = false ∧
      s'.close = .error .ResourceMisuse ∧
      (∀ t k?, s'.put t k? = .error .ResourceMisuse) ∧
      (∀ k, s'.get k = .error .ResourceMisuse) ∧
      s'.iterFrames = .error .ResourceMisuse ∧
      (∀ n?, s'.dump n? = .error .ResourceMisuse) ∧
      (∀ k, s'.delete k = .error .ResourceMisuse) := by
  refine ⟨{ s with isOpen := false }, ?_, rfl, rfl, rfl, ?_, ?_, ?_, ?_, ?_, ?_⟩
  · unfold PandasHDFStore.close
    simp [hopen]
  · unfold PandasHDFStore.close
    simp
  · intro t k?
    unfold PandasHDFStore.put
    simp
  · intro k
    unfold PandasHDFStore.get
    simp
  · unfold PandasHDFStore.iterFrames
    simp
  · intro n?
    unfold PandasHDFStore.dump
    simp
  · intro k
    unfold PandasHDFStore.delete
    simp

/-- Witness for C7 on a concrete one-frame open store. -/
theorem closed_store_misuse_witness :
    sampleStoreC3.isOpen = true ∧
    (∃ s', sampleStoreC3.close = .ok s' ∧ s'.frames = sampleStoreC3.frames ∧
      s'.t_column = sampleStoreC3.t_column ∧ s'.isOpen = false ∧
      s'.close = .error .ResourceMisuse ∧
      (∀ t k?, s'.put t k? = .error .ResourceMisuse) ∧
      (∀ k, s'.get k = .error .ResourceMisuse) ∧
      s'.iterFrames = .error .ResourceMisuse ∧
      (∀ n?, s'.dump n? = .error .ResourceMisuse) ∧
      (∀ k, s'.delete k = .error .ResourceMisuse)) :=
  ⟨rfl, closed_store_misuse sampleStoreC3 rfl⟩

/-! ### C8 -/

/-- The name of the particle-id column added by linking. -/
def particleColumn : FieldName := "particle"

/-- Modelled from the spec: the matcher assigns each feature row a particle
id, threading the (out-of-scope) track state; one output row per input row,
equal to the input row with the particle-id field appended. -/
def linkRows {σ : Type} (assign : σ → Row → Value × σ) :
    σ → List Row → List Row × σ
  | st, [] => ([], st)
  | st, r :: rs =>
    let step := assign st r
    let rest := linkRows assign step.2 rs
    ((r ++ [(particleColumn, step.1)]) :: rest.1, rest.2)

/-- Modelled from the spec: `link_df_iter` consumes a frame-ordered sequence
of (frame index, table) pairs and produces the per-frame linked tables in
the same order, threading the matcher state across frames. -/
def link_df_iter {σ : Type} (assign : σ → Row → Value × σ) :
    σ → List (Value × Table) → List (Value × Table)
  | _, [] => []
  | st, (k, t) :: rest =>
    let lt := linkRows assign st t
    (k, lt.1) :: link_df_iter assign lt.2 rest

theorem linkRows_spec {σ : Type} (assign : σ → Row → Value × σ) :
    ∀ (st : σ) (rs : List Row),
    (linkRows assign st rs).1.length = rs.length ∧
    ∀ q ∈ (linkRows assign st rs).1.zip rs, ∃ pid, q.1 = q.2 ++ [(particleColumn, pid)] := by
  intro st rs
  induction rs generalizing st with
  | nil => exact ⟨rfl, by intro q hq; cases hq⟩
  | cons r rs' ih =>
    obtain ⟨ihlen, ihmem⟩ := ih (assign st r).2
    refine ⟨by simp [linkRows, ihlen], ?_⟩
    intro q hq
    simp only [linkRows, List.zip_cons_cons, List.mem_cons] at hq
    rcases hq with rfl | hq
    · exact ⟨(assign st r).1, rfl⟩
    · exact ihmem q hq

/-- C8: for every frame-ordered input and every matcher, the streaming
linker yields one output table per input table, with identical frame
indices in identical order, and each output table has exactly the input
rows, each augmented with one appended particle-id field. -/
theorem link_df_iter_spec {σ : Type} (assign : σ → Row → Value × σ)
    (st : σ) (frames : List (Value × Table)) :
    (link_df_iter assign st frames).map Prod.fst = frames.map Prod.fst ∧
    ∀ p ∈ (link_df_iter assign st frames).zip frames,
      p.1.2.length = p.2.2.length ∧
      ∀ q ∈ p.1.2.zip p.2.2, ∃ pid, q.1 = q.2 ++ [(particleColumn, pid)] := by
  induction frames generalizing st with
  | nil => exact ⟨rfl, by intro p hp; cases hp⟩
  | cons f rest ih =>
    obtain ⟨k, t⟩ := f
    obtain ⟨ihkeys, ihmem⟩ := ih (linkRows assign st t).2
    constructor
    · simp only [link_df_iter, List.map_cons, ihkeys]
    · intro p hp
      simp only [link_df_iter, List.zip_cons_cons, List.mem_cons] at hp
      rcases hp with rfl | hp
      · exact ⟨(linkRows_spec assign st t).1, (linkRows_spec assign st t).2⟩
      · exact ihmem p hp

/-! ### C10 -/

/-- Modelled from the spec: an image is a 2-D numeric array, one per frame. -/
abbrev Image := List (List Value)

/-- The notebook's per-frame loop: locate features in each image and `put`
the resulting table, letting the store infer the frame index from the
table's frame column. -/
def locateLoop (locate : Nat → Image → Table) :
    PandasHDFStore → Nat → List Image → Except Err PandasHDFStore
  | s, _, [] => .ok s
  | s, n, img :: rest =>
    match s.put (locate n img) none with
    | .ok s' => locateLoop locate s' (n + 1) rest
    | .error e => .error e

/-- Modelled from the spec: `batch` is the multi-frame runner that locates
features in each image of the sequence and stores each frame's table in the
output store under that frame's index. -/
def batch (locate : Nat → Image → Table) :
    PandasHDFStore → Nat → List Image → Except Err PandasHDFStore
  | s, _, [] => .ok s
  | s, n, img :: rest =>
    match s.put (locate n img) (some (Int.ofNat n)) with
    | .ok s' => batch locate s' (n + 1) rest
    | .error e => .error e

/-- When every row of a table carries frame index `k`, a `put` that infers
the index from the frame column equals a `put` with explicit index `k`. -/
theorem put_none_eq_put_some {s : PandasHDFStore} {t : Table} {k : Value}
    (hk : ∀ r ∈ t, rowFrame s.t_column r = some k) :
    s.put t none = s.put t (some k) := by
  unfold PandasHDFStore.put
  by_cases hopen : s.isOpen = false
  · simp [hopen]
  · rw [if_neg hopen, if_neg hopen]
    by_cases hemp : t = []
    · rw [if_pos hemp, if_pos hemp]
    · rw [if_neg hemp, if_neg hemp]
      have hnm := mixedFrames_eq_false_of_const hk
      rw [hnm]
      simp only [Bool.false_eq_true, if_false]
      obtain ⟨r, rs, rfl⟩ := List.exists_cons_of_ne_nil hemp
      rw [List.filterMap_cons_some (hk r (by simp))]
      rfl

/-- C10: the per-frame locate/put loop and the batch runner over the same
image sequence produce identical store outcomes, whenever the located table
of each frame carries that frame's index in every row. -/
theorem locateLoop_eq_batch (locate : Nat → Image → Table) (c : FieldName) :
    ∀ (images : List Image) (s : PandasHDFStore) (n : Nat), s.t_column = c →
    (∀ i img, ∀ r ∈ locate i img, rowFrame c r = some (Int.ofNat i)) →
    locateLoop locate s n images = batch locate s n images := by
  intro images
  induction images with
  | nil => intro s n _ _; rfl
  | cons img rest ih =>
    intro s n hc h
    rw [locateLoop, batch]
    have hstep : s.put (locate n img) none = s.put (locate n img) (some (Int.ofNat n)) := by
      apply put_none_eq_put_some
      intro r hr
      rw [hc]
      exact h n img r hr
    rw [hstep]
    match hput : s.put (locate n img) (some (Int.ofNat n)) with
    | .error e => rfl
    | .ok s' =>
      have hc' : s'.t_column = c := by
        obtain ⟨ht, -, -⟩ := put_some_cases hput
        exact ht.trans hc
      exact ih s' (n + 1) hc' h

/-- Witness for C10: a two-image sequence whose locator reports one feature
per frame, carrying the frame index in the frame column. -/
theorem locateLoop_eq_batch_witness :
    ((emptyStore "frame").t_column = "frame" ∧
      (∀ i img, ∀ r ∈ (fun (i : Nat) (img : Image) =>
          [[("frame", Int.ofNat i), ("x", img.length)]] : Nat → Image → Table) i img,
        rowFrame "frame" r = some (Int.ofNat i))) ∧
    locateLoop (fun (i : Nat) (img : Image) => [[("frame", Int.ofNat i), ("x", img.length)]])
        (emptyStore "frame") 0 [[[4, 5]], [[6]]] =
      batch (fun (i : Nat) (img : Image) => [[("frame", Int.ofNat i), ("x", img.length)]])
        (emptyStore "frame") 0 [[[4, 5]], [[6]]] :=
  ⟨⟨rfl, by intro i img r hr; simp only [List.mem_singleton] at hr; subst hr; rfl⟩,
    locateLoop_eq_batch (fun (i : Nat) (img : Image) => [[("frame", Int.ofNat i), ("x", img.length)]])
      "frame" [[[4, 5]], [[6]]] (emptyStore "frame") 0 rfl
      (by intro i img r hr; simp only [List.mem_singleton] at hr; subst hr; rfl)⟩

/-! ### C9 -/

/-- Modelled from the spec: one retained unit of track state inside the
streaming linker — a particle id together with the frame in which that
track was last seen. -/
structure TrackEntry where
  pid : Value
  last : Nat
deriving DecidableEq

/-- Number of retained entries last seen in frame `τ`. -/
def countLast (τ : Nat) (st : List TrackEntry) : Nat :=
  (st.filter (fun e => e.last == τ)).length

/-- Modelled from the spec: the linker "must retain only a bounded sliding
window of recent unmatched tracks"; after handling frame `t` every entry
last seen more than `memory` frames ago is dropped. -/
def pruneWindow (memory t : Nat) (st : List TrackEntry) : List TrackEntry :=
  st.filter (fun e => decide (t ≤ e.last + memory))

/-- Modelled from the spec: one feature row of frame `t` either matches a
retained track (chosen by the out-of-scope neighbor-search strategy), whose
entry is re-stamped with `t`, or starts a new track with a fresh id. -/
def stepRow (choose : List TrackEntry → Row → Option Nat) (t : Nat) :
    Value × List TrackEntry → Row → Value × List TrackEntry
  | (nextId, st), r =>
    match choose st r with
    | some i =>
      match st[i]? with
      | some e => (nextId, st.eraseIdx i ++ [⟨e.pid, t⟩])
      | none => (nextId + 1, st ++ [⟨nextId, t⟩])
    | none => (nextId + 1, st ++ [⟨nextId, t⟩])

/-- Process one frame's rows at frame index `t`, then prune the window. -/
def processFrame (choose : List TrackEntry → Row → Option Nat) (memory t : Nat)
    (acc : Value × List TrackEntry) (rows : Table) : Value × List TrackEntry :=
  let folded := rows.foldl (stepRow choose t) acc
  (folded.1, pruneWindow memory t folded.2)

/-- Modelled from the spec: the streaming linker's internal state evolution
while consuming the frames one at a time, starting at frame index `t`. -/
def linkStream (choose : List TrackEntry → Row → Option Nat) (memory : Nat) :
    Value × List TrackEntry → Nat → List Table → Value × List TrackEntry
  | acc, _, [] => acc
  | acc, t, rows :: rest =>
    linkStream choose memory (processFrame choose memory t acc rows) (t + 1) rest

theorem countLast_cons (τ : Nat) (e : TrackEntry) (st : List TrackEntry) :
    countLast τ (e :: st) = (if e.last = τ then 1 else 0) + countLast τ st := by
  by_cases h : e.last = τ
  · simp [countLast, List.filter_cons, h, Nat.add_comm]
  · simp [countLast, List.filter_cons, h]

theorem countLast_append_single (τ : Nat) (st : List TrackEntry) (e : TrackEntry) :
    countLast τ (st ++ [e]) = countLast τ st + (if e.last = τ then 1 else 0) := by
  by_cases h : e.last = τ
  · simp [countLast, List.filter_append, h]
  · simp [countLast, List.filter_append, h]

theorem countLast_sublist_le {st st' : List TrackEntry} (h : st'.Sublist st)
    (τ : Nat) : countLast τ st' ≤ countLast τ st :=
  List.Sublist.length_le (List.Sublist.filter _ h)

theorem countLast_eq_zero {τ : Nat} {st : List TrackEntry}
    (h : ∀ e ∈ st, e.last ≠ τ) : countLast τ st = 0 := by
  unfold countLast
  rw [List.length_eq_zero]
  rw [List.filter_eq_nil_iff]
  intro e he
  simp [h e he]

theorem stepRow_count (choose : List TrackEntry → Row → Option Nat) (t : Nat)
    (acc : Value × List TrackEntry) (r : Row) :
    countLast t (stepRow choose t acc r).2 ≤ countLast t acc.2 + 1 ∧
    ∀ τ, τ ≠ t → countLast τ (stepRow choose t acc r).2 ≤ countLast τ acc.2 := by
  obtain ⟨nextId, st⟩ := acc
  have hbase : ∀ (x : List TrackEntry) (p : Value), x.Sublist st →
      countLast t (x ++ [⟨p, t⟩]) ≤ countLast t st + 1 ∧
      ∀ τ, τ ≠ t → countLast τ (x ++ [⟨p, t⟩]) ≤ countLast τ st := by
    intro x p hx
    constructor
    · rw [countLast_append_single]
      simp only [if_pos rfl]
      exact Nat.add_le_add_right (countLast_sublist_le hx t) 1
    · intro τ hτ
      rw [countLast_append_single]
      simp only [if_neg (Ne.symm hτ), Nat.add_zero]
      exact countLast_sublist_le hx τ
  cases hch : choose st r with
  | none =>
    simp only [stepRow, hch]
    exact hbase st nextId (List.Sublist.refl st)
  | some i =>
    cases hget : st[i]? with
    | none =>
      simp only [stepRow, hch, hget]
      exact hbase st nextId (List.Sublist.refl st)
    | some e =>
      simp only [stepRow, hch, hget]
      exact hbase (st.eraseIdx i) e.pid (List.eraseIdx_sublist st i)

theorem stepRow_last (choose : List TrackEntry → Row → Option Nat) (t : Nat)
    (acc : Value × List TrackEntry) (r : Row)
    (h : ∀ e ∈ acc.2, e.last ≤ t) :
    ∀ e ∈ (stepRow choose t acc r).2, e.last ≤ t := by
  obtain ⟨nextId, st⟩ := acc
  have hbase : ∀ (x : List TrackEntry) (p : Value), x.Sublist st →
      ∀ e ∈ x ++ [(⟨p, t⟩ : TrackEntry)], e.last ≤ t := by
    intro x p hx e he
    rcases List.mem_append.mp he with he | he
    · exact h e (hx.subset he)
    · simp only [List.mem_singleton] at he
      subst he
      exact le_refl t
  cases hch : choose st r with
  | none =>
    simp only [stepRow, hch]
    exact hbase st nextId (List.Sublist.refl st)
  | some i =>
    cases hget : st[i]? with
    | none =>
      simp only [stepRow, hch, hget]
      exact hbase st nextId (List.Sublist.refl st)
    | some e =>
      simp only [stepRow, hch, hget]
      exact hbase (st.eraseIdx i) e.pid (List.eraseIdx_sublist st i)

theorem foldRows_count (choose : List TrackEntry → Row → Option Nat) (t : Nat) :
    ∀ (rows : Table) (acc : Value × List TrackEntry),
    countLast t (rows.foldl (stepRow choose t) acc).2 ≤ countLast t acc.2 + rows.length ∧
    ∀ τ, τ ≠ t → countLast τ (rows.foldl (stepRow choose t) acc).2 ≤ countLast τ acc.2 := by
  intro rows
  induction rows with
  | nil => intro acc; exact ⟨Nat.le_add_right _ 0, fun τ _ => le_refl _⟩
  | cons r rows' ih =>
    intro acc
    obtain ⟨hstep1, hstep2⟩ := stepRow_count choose t acc r
    obtain ⟨ih1, ih2⟩ := ih (stepRow choose t acc r)
    constructor
    · calc countLast t ((r :: rows').foldl (stepRow choose t) acc).2
          ≤ countLast t (stepRow choose t acc r).2 + rows'.length := ih1
        _ ≤ (countLast t acc.2 + 1) + rows'.length := Nat.add_le_add_right hstep1 _
        _ = countLast t acc.2 + (r :: rows').length := by simp [List.length_cons]; omega
    · intro τ hτ
      exact le_trans (ih2 τ hτ) (hstep2 τ hτ)

theorem foldRows_last (choose : List TrackEntry → Row → Option Nat) (t : Nat) :
    ∀ (rows : Table) (acc : Value × List TrackEntry),
    (∀ e ∈ acc.2, e.last ≤ t) →
    ∀ e ∈ (rows.foldl (stepRow choose t) acc).2, e.last ≤ t := by
  intro rows
  induction rows with
  | nil => intro acc h; exact h
  | cons r rows' ih =>
    intro acc h
    exact ih (stepRow choose t acc r) (stepRow_last choose t acc r h)

theorem pruneWindow_mem {memory t : Nat} {st : List TrackEntry} {e : TrackEntry}
    (h : e ∈ pruneWindow memory t st) : e ∈ st ∧ t ≤ e.last + memory := by
  have := List.mem_filter.mp h
  exact ⟨this.1, by simpa using this.2⟩

theorem pruneWindow_count_le (memory t τ : Nat) (st : List TrackEntry) :
    countLast τ (pruneWindow memory t st) ≤ countLast τ st :=
  countLast_sublist_le (List.filter_sublist st) τ

theorem length_eq_sum_counts :
    ∀ (st : List TrackEntry) (a w : Nat),
    (∀ e ∈ st, a ≤ e.last ∧ e.last < a + w) →
    st.length = ∑ τ in Finset.Ico a (a + w), countLast τ st := by
  intro st a w
  induction st with
  | nil => intro _; simp [countLast]
  | cons e st' ih =>
    intro h
    have he := h e (List.mem_cons_self e st')
    have hrest := ih fun x hx => h x (List.mem_cons_of_mem e hx)
    simp only [List.length_cons, countLast_cons]
    rw [Finset.sum_add_distrib, ← hrest]
    have hsum : (∑ τ in Finset.Ico a (a + w), if e.last = τ then 1 else 0) = 1 := by
      rw [Finset.sum_ite_eq]
      simp [Finset.mem_Ico, he.1, he.2]
    omega

theorem length_le_of_counts (st : List TrackEntry) (a w B : Nat)
    (hmem : ∀ e ∈ st, a ≤ e.last ∧ e.last < a + w)
    (hc : ∀ τ, countLast τ st ≤ B) :
    st.length ≤ w * B := by
  rw [length_eq_sum_counts st a w hmem]
  calc ∑ τ in Finset.Ico a (a + w), countLast τ st
      ≤ ∑ τ in Finset.Ico a (a + w), B := Finset.sum_le_sum fun τ _ => hc τ
    _ = (Finset.Ico a (a + w)).card * B := by rw [Finset.sum_const, smul_eq_mul]
    _ = w * B := by rw [Nat.card_Ico, Nat.add_sub_cancel_left]

theorem linkStream_invariant (choose : List TrackEntry → Row → Option Nat)
    (memory B : Nat) :
    ∀ (frames : List Table) (t : Nat) (acc : Value × List TrackEntry),
    (∀ tb ∈ frames, tb.length ≤ B) →
    (∀ τ, countLast τ acc.2 ≤ B) →
    (∀ e ∈ acc.2, e.last < t) →
    (∀ e ∈ acc.2, t ≤ e.last + memory + 1) →
    (∀ τ, countLast τ (linkStream choose memory acc t frames).2 ≤ B) ∧
    (∀ e ∈ (linkStream choose memory acc t frames).2, e.last < t + frames.length) ∧
    (∀ e ∈ (linkStream choose memory acc t frames).2,
      t + frames.length ≤ e.last + memory + 1) := by
  intro frames
  induction frames with
  | nil =>
    intro t acc _ hcount hlt hrec
    refine ⟨hcount, ?_, ?_⟩
    · intro e he
      have := hlt e he
      simpa using this
    · intro e he
      have := hrec e he
      simpa using this
  | cons rows rest ih =>
    intro t acc hB hcount hlt hrec
    have hacc2 : (processFrame choose memory t acc rows).2 =
        pruneWindow memory t ((rows.foldl (stepRow choose t) acc).2) := rfl
    have hcount0 : countLast t acc.2 = 0 :=
      countLast_eq_zero fun e he => Nat.ne_of_lt (hlt e he)
    have hfc := foldRows_count choose t rows acc
    have hcount' : ∀ τ, countLast τ (processFrame choose memory t acc rows).2 ≤ B := by
      intro τ
      rw [hacc2]
      by_cases hτ : τ = t
      · subst hτ
        have h1 := hfc.1
        rw [hcount0] at h1
        have hrB : rows.length ≤ B := hB rows (List.mem_cons_self rows rest)
        calc countLast τ (pruneWindow memory τ ((rows.foldl (stepRow choose τ) acc).2))
            ≤ countLast τ ((rows.foldl (stepRow choose τ) acc).2) :=
              pruneWindow_count_le memory τ τ _
          _ ≤ 0 + rows.length := h1
          _ ≤ B := by omega
      · calc countLast τ (pruneWindow memory t ((rows.foldl (stepRow choose t) acc).2))
            ≤ countLast τ ((rows.foldl (stepRow choose t) acc).2) :=
              pruneWindow_count_le memory t τ _
          _ ≤ countLast τ acc.2 := hfc.2 τ hτ
          _ ≤ B := hcount τ
    have hlt' : ∀ e ∈ (processFrame choose memory t acc rows).2, e.last < t + 1 := by
      intro e he
      rw [hacc2] at he
      obtain ⟨hef, -⟩ := pruneWindow_mem he
      have := foldRows_last choose t rows acc (fun x hx => le_of_lt (hlt x hx)) e hef
      omega
    have hrec' : ∀ e ∈ (processFrame choose memory t acc rows).2,
        t + 1 ≤ e.last + memory + 1 := by
      intro e he
      rw [hacc2] at he
      obtain ⟨-, hw⟩ := pruneWindow_mem he
      omega
    obtain ⟨ic, il, ir⟩ := ih (t + 1) (processFrame choose memory t acc rows)
      (fun tb htb => hB tb (List.mem_cons_of_mem rows htb)) hcount' hlt' hrec'
    refine ⟨?_, ?_, ?_⟩
    · intro τ
      simpa only [linkStream] using ic τ
    · intro e he
      simp only [linkStream] at he
      have := il e he
      simp only [List.length_cons]
      omega
    · intro e he
      simp only [linkStream] at he
      have := ir e he
      simp only [List.length_cons]
      omega

/-- C9: consuming any frame sequence whose tables each hold at most `B`
rows, the streaming linker's retained track state stays within the bound
`(memory + 1) * B` — independent of the number of frames consumed — and
every retained entry was last seen within the trailing window of
`memory + 1` frames. -/
theorem link_window_bounded (choose : List TrackEntry → Row → Option Nat)
    (memory B : Nat) (frames : List Table)
    (hB : ∀ tb ∈ frames, tb.length ≤ B) :
    (linkStream choose memory (0, []) 0 frames).2.length ≤ (memory + 1) * B ∧
    ∀ e ∈ (linkStream choose memory (0, []) 0 frames).2,
      frames.length ≤ e.last + memory + 1 := by
  obtain ⟨hc, hl, hr⟩ := linkStream_invariant choose memory B frames 0 (0, []) hB
    (by intro τ; simp [countLast]) (by intro e he; cases he) (by intro e he; cases he)
  constructor
  · apply length_le_of_counts _ (frames.length - (memory + 1)) (memory + 1) B _ hc
    intro e he
    have h1 := hl e he
    have h2 := hr e he
    simp only [Nat.zero_add] at h1 h2
    omega
  · intro e he
    have := hr e he
    simpa using this

/-- Witness for C9: three one-row frames, memory window 1; the retained
state stays within (1 + 1) * 1 entries. -/
theorem link_window_bounded_witness :
    (∀ tb ∈ ([[[("x", (0 : Int))]], [[("x", 1)]], [[("x", 2)]]] : List Table),
      tb.length ≤ 1) ∧
    ((linkStream (fun _ _ => none) 1 (0, []) 0
        [[[("x", (0 : Int))]], [[("x", 1)]], [[("x", 2)]]]).2.length ≤ (1 + 1) * 1 ∧
      ∀ e ∈ (linkStream (fun _ _ => none) 1 (0, []) 0
          [[[("x", (0 : Int))]], [[("x", 1)]], [[("x", 2)]]]).2,
        ([[[("x", (0 : Int))]], [[("x", 1)]], [[("x", 2)]]] : List Table).length ≤
          e.last + 1 + 1) :=
  ⟨by decide, link_window_bounded (fun _ _ => none) 1 1 _ (by decide)⟩
